import Mathlib

/-!
Verification of deep_learning/cost_functions.py: the four final-activation /
cost variants (SigmoidCrossEntropy, SigmoidPerceptron, SoftmaxCrossEntropy,
LinearMinimumSquareError) and the free function
compute_cost_with_regularization.

Numeric 2-D arrays are embedded as a shape (rows, cols) together with a total
entry function; floating point arithmetic is idealized to the reals.  Python
failures (the shape assert, ZeroDivisionError from -1/m or lambd/(2*m) when
m = 0, numpy broadcast ValueError) are modelled by an explicit error type, so
each joint operation returns an Except value.
-/

noncomputable section

namespace CostFunctions

/-- A 2-D numeric array: a shape together with a total entry function.
Entries outside the shape are junk; observational equality (MatEq below)
only looks inside the shape. -/
@[ext]
structure Mat where
  rows : ℕ
  cols : ℕ
  entry : ℕ → ℕ → ℝ

/-- The shape of an array, as numpy reports it: (rows, cols). -/
def Mat.shape (M : Mat) : ℕ × ℕ := (M.rows, M.cols)

/-- Observational equality of arrays: same shape, same entries inside it. -/
def MatEq (A B : Mat) : Prop :=
  A.rows = B.rows ∧ A.cols = B.cols ∧
    ∀ i < A.rows, ∀ j < A.cols, A.entry i j = B.entry i j

/-- np.sum over a whole array: the sum of all entries inside the shape. -/
def Mat.sum (M : Mat) : ℝ :=
  ∑ i ∈ Finset.range M.rows, ∑ j ∈ Finset.range M.cols, M.entry i j

/-- np.sum of np.square: the sum of the squared entries. -/
def Mat.sumSq (M : Mat) : ℝ :=
  ∑ i ∈ Finset.range M.rows, ∑ j ∈ Finset.range M.cols, (M.entry i j) ^ 2

/-- Element-wise map over an array (shape preserved). -/
def Mat.map (f : ℝ → ℝ) (M : Mat) : Mat :=
  ⟨M.rows, M.cols, fun i j => f (M.entry i j)⟩

/-- Element-wise combination of two same-shaped arrays (the code only combines
arrays after its shape assert, except for the one broadcast modelled by bmul). -/
def ewise (f : ℝ → ℝ → ℝ) (A B : Mat) : Mat :=
  ⟨A.rows, A.cols, fun i j => f (A.entry i j) (B.entry i j)⟩

/-- numpy transpose: .T. -/
def Mat.transpose (M : Mat) : Mat :=
  ⟨M.cols, M.rows, fun i j => M.entry j i⟩

/-- numpy broadcasting of one axis: two lengths are compatible when they are
equal or one of them is 1, and the broadcast length is the larger one. -/
def bdim (a b : ℕ) : Option ℕ :=
  if a = b then some a else if a = 1 then some b else if b = 1 then some a else none

/-- Index selection along a broadcast axis: an axis of length 1 is read at 0. -/
def bsel (d i : ℕ) : ℕ := if d = 1 then 0 else i

/-- numpy element-wise product with broadcasting; none models the ValueError
raised on incompatible shapes. -/
def bmul (A B : Mat) : Option Mat :=
  match bdim A.rows B.rows, bdim A.cols B.cols with
  | some r, some c =>
      some ⟨r, c, fun i j =>
        A.entry (bsel A.rows i) (bsel A.cols j) *
          B.entry (bsel B.rows i) (bsel B.cols j)⟩
  | _, _ => none

/-- Modelled from the spec: the activation primitive sigmoid(Z) = 1/(1+e^-Z)
applied element-wise.  It lives in activation_functions.py, which is not among
the sources; only its contract is specified. -/
def sigmoid (M : Mat) : Mat :=
  M.map (fun z => 1 / (1 + Real.exp (-z)))

/-- Modelled from the spec: the activation primitive softmax(Z), a per-column
normalized exponential, so each sample (column) sums to 1.  It lives in
activation_functions.py, which is not among the sources. -/
def softmax (M : Mat) : Mat :=
  ⟨M.rows, M.cols, fun i j =>
    Real.exp (M.entry i j) / ∑ k ∈ Finset.range M.rows, Real.exp (M.entry k j)⟩

/-- Modelled from the spec: binary_classification_prediction thresholds
probabilities at 0.5 into hard 0/1 predictions, shape preserved.  It lives in
model_helpers.py, which is not among the sources. -/
def binary_classification_prediction (M : Mat) : Mat :=
  M.map (fun a => if 1 / 2 < a then 1 else 0)

/-- np.logical_xor on two same-shaped arrays, with numpy truthiness (an entry
is true iff nonzero); the resulting boolean array is re-read as 0/1 numbers,
as happens when numpy multiplies it with a float array. -/
def logicalXor (A B : Mat) : Mat :=
  ⟨A.rows, A.cols, fun i j =>
    if (A.entry i j ≠ 0 ∧ B.entry i j = 0) ∨ (A.entry i j = 0 ∧ B.entry i j ≠ 0)
    then 1 else 0⟩

/-- The failure modes of the module: the shape assert, Python ZeroDivisionError
from the 1/m scaling when there are zero samples, and numpy broadcast
ValueError. -/
inductive CostError where
  | shapeMismatch : ℕ × ℕ → ℕ × ℕ → CostError
  | divisionByZero : CostError
  | broadcastMismatch : CostError

/-- SigmoidCrossEntropy.final_activation: sigmoid(ZL). -/
def SigmoidCrossEntropy.final_activation (ZL : Mat) : Mat := sigmoid ZL

/-- SigmoidCrossEntropy.final_activation_and_cost, line by line from the
source: assert shapes, m = Y.shape[1], AL = sigmoid(ZL),
cost = -1/m * np.sum(Y*log(AL) + (1-Y)*log(1-AL)), dZL = AL - Y. -/
def SigmoidCrossEntropy.final_activation_and_cost (Y ZL : Mat) :
    Except CostError (ℝ × Mat × Mat) :=
  if Y.shape ≠ ZL.shape then .error (.shapeMismatch Y.shape ZL.shape)
  else if Y.cols = 0 then .error .divisionByZero
  else
    let m : ℝ := Y.cols
    let AL := SigmoidCrossEntropy.final_activation ZL
    let cost := -1 / m *
      (ewise (fun y a => y * Real.log a + (1 - y) * Real.log (1 - a)) Y AL).sum
    let dZL := ewise (fun a y => a - y) AL Y
    .ok (cost, AL, dZL)

/-- SigmoidPerceptron.final_activation: sigmoid(ZL). -/
def SigmoidPerceptron.final_activation (ZL : Mat) : Mat := sigmoid ZL

/-- SigmoidPerceptron.final_activation_and_cost, line by line from the source:
assert shapes, m, AL = sigmoid(ZL), Y_prediction, misclassified indicator via
np.logical_xor, cost = -1/m * np.sum(np.abs(ZL) * misclassified_indicator.T)
(note the transpose: numpy broadcasts (1,m) against (m,1) to an (m,m) outer
product), dZL = (2*Y - 1) * misclassified_indicator.  With m = 0 the term
-1/m raises before the product is formed, hence the order of the checks. -/
def SigmoidPerceptron.final_activation_and_cost (Y ZL : Mat) :
    Except CostError (ℝ × Mat × Mat) :=
  if Y.shape ≠ ZL.shape then .error (.shapeMismatch Y.shape ZL.shape)
  else if Y.cols = 0 then .error .divisionByZero
  else
    let m : ℝ := Y.cols
    let AL := SigmoidPerceptron.final_activation ZL
    let Y_prediction := binary_classification_prediction AL
    let mis := logicalXor Y Y_prediction
    match bmul (ZL.map (fun z => |z|)) mis.transpose with
    | none => .error .broadcastMismatch
    | some P =>
        let cost := -1 / m * P.sum
        let dZL := ewise (fun y i => (2 * y - 1) * i) Y mis
        .ok (cost, AL, dZL)

/-- SoftmaxCrossEntropy.final_activation: softmax(ZL). -/
def SoftmaxCrossEntropy.final_activation (ZL : Mat) : Mat := softmax ZL

/-- SoftmaxCrossEntropy.final_activation_and_cost, line by line from the
source: assert shapes, m, AL = softmax(ZL), cost = -1/m * np.sum(Y*log(AL)),
dZL = AL - Y. -/
def SoftmaxCrossEntropy.final_activation_and_cost (Y ZL : Mat) :
    Except CostError (ℝ × Mat × Mat) :=
  if Y.shape ≠ ZL.shape then .error (.shapeMismatch Y.shape ZL.shape)
  else if Y.cols = 0 then .error .divisionByZero
  else
    let m : ℝ := Y.cols
    let AL := SoftmaxCrossEntropy.final_activation ZL
    let cost := -1 / m * (ewise (fun y a => y * Real.log a) Y AL).sum
    let dZL := ewise (fun a y => a - y) AL Y
    .ok (cost, AL, dZL)

/-- LinearMinimumSquareError.final_activation: the identity. -/
def LinearMinimumSquareError.final_activation (ZL : Mat) : Mat := ZL

/-- LinearMinimumSquareError.final_activation_and_cost, line by line from the
source: assert shapes, m, AL = ZL, cost = -1/m * np.sum((AL - Y)**2),
dZL = 2*(AL - Y). -/
def LinearMinimumSquareError.final_activation_and_cost (Y ZL : Mat) :
    Except CostError (ℝ × Mat × Mat) :=
  if Y.shape ≠ ZL.shape then .error (.shapeMismatch Y.shape ZL.shape)
  else if Y.cols = 0 then .error .divisionByZero
  else
    let m : ℝ := Y.cols
    let AL := ZL
    let cost := -1 / m * (ewise (fun a y => (a - y) ^ 2) AL Y).sum
    let dZL := (ewise (fun a y => a - y) AL Y).map (fun x => 2 * x)
    .ok (cost, AL, dZL)

/-- The four concrete variants of the abstract final-activation-and-cost
capability. -/
inductive Variant where
  | sigmoidCE
  | sigmoidPerceptron
  | softmaxCE
  | linearMSE

/-- Dispatch of final_activation over the four variants. -/
def finalActivation : Variant → Mat → Mat
  | .sigmoidCE, ZL => SigmoidCrossEntropy.final_activation ZL
  | .sigmoidPerceptron, ZL => SigmoidPerceptron.final_activation ZL
  | .softmaxCE, ZL => SoftmaxCrossEntropy.final_activation ZL
  | .linearMSE, ZL => LinearMinimumSquareError.final_activation ZL

/-- Dispatch of final_activation_and_cost over the four variants. -/
def finalActivationAndCost : Variant → Mat → Mat → Except CostError (ℝ × Mat × Mat)
  | .sigmoidCE, Y, ZL => SigmoidCrossEntropy.final_activation_and_cost Y ZL
  | .sigmoidPerceptron, Y, ZL => SigmoidPerceptron.final_activation_and_cost Y ZL
  | .softmaxCE, Y, ZL => SoftmaxCrossEntropy.final_activation_and_cost Y ZL
  | .linearMSE, Y, ZL => LinearMinimumSquareError.final_activation_and_cost Y ZL

/-- The name-prefix convention of the source, key.startswith of the single
letter W: the first character of the parameter name is W. -/
def isWeightName (s : String) : Bool :=
  match s.data with
  | [] => false
  | c :: _ => c = 'W'

/-- Selection of the weight matrices from the parameter mapping: the entries
whose name starts with the letter W, in order. -/
def selectWs (params : List (String × Mat)) : List Mat :=
  (params.filter (fun p => isWeightName p.1)).map (fun p => p.2)

/-- compute_cost_with_regularization, line by line from the source:
cost = cost_function(A, Y) first, then m = Y.shape[1], the W-named parameters,
L2 = (lambd/(2m)) * sum of the sums of squares, and cost + L2.  There is no
shape assert in this function; with m = 0 the division lambd/(2*m) raises. -/
def compute_cost_with_regularization (Y A : Mat) (params : List (String × Mat))
    (cost_function : Mat → Mat → Except CostError ℝ) (lambd : ℝ) :
    Except CostError ℝ :=
  match cost_function A Y with
  | .error e => .error e
  | .ok cost =>
      if Y.cols = 0 then .error .divisionByZero
      else
        let m : ℝ := Y.cols
        let L2 := lambd / (2 * m) * ((selectWs params).map Mat.sumSq).sum
        .ok (cost + L2)

/-- The SigmoidPerceptron cost as claim C4 words it: -(1/m) times the sum of
|ZL| times the misclassification indicator, summed entry by entry (so only
the linear-output magnitudes of misclassified samples contribute).  This is
the spec reading to compare against the source, which instead multiplies
|ZL| by the transposed indicator. -/
def claimedPerceptronCost (Y ZL : Mat) : ℝ :=
  -1 / (Y.cols : ℝ) *
    (ewise (· * ·) (ZL.map (fun z => |z|))
      (logicalXor Y (binary_classification_prediction (sigmoid ZL)))).sum

/-! Helper lemmas shared by the claim theorems. -/

/-- Evaluation of SigmoidCrossEntropy.final_activation_and_cost on same-shaped
inputs with at least one sample. -/
lemma sigmoidCE_fac_eq (Y ZL : Mat) (hsh : Y.shape = ZL.shape)
    (hm : Y.cols ≠ 0) :
    SigmoidCrossEntropy.final_activation_and_cost Y ZL =
      .ok (-1 / (Y.cols : ℝ) *
            (ewise (fun y a => y * Real.log a + (1 - y) * Real.log (1 - a))
              Y (sigmoid ZL)).sum,
           sigmoid ZL, ewise (fun a y => a - y) (sigmoid ZL) Y) := by
  unfold SigmoidCrossEntropy.final_activation_and_cost
    SigmoidCrossEntropy.final_activation
  rw [if_neg (not_not_intro hsh), if_neg hm]

/-- Evaluation of SoftmaxCrossEntropy.final_activation_and_cost on same-shaped
inputs with at least one sample. -/
lemma softmaxCE_fac_eq (Y ZL : Mat) (hsh : Y.shape = ZL.shape)
    (hm : Y.cols ≠ 0) :
    SoftmaxCrossEntropy.final_activation_and_cost Y ZL =
      .ok (-1 / (Y.cols : ℝ) *
            (ewise (fun y a => y * Real.log a) Y (softmax ZL)).sum,
           softmax ZL, ewise (fun a y => a - y) (softmax ZL) Y) := by
  unfold SoftmaxCrossEntropy.final_activation_and_cost
    SoftmaxCrossEntropy.final_activation
  rw [if_neg (not_not_intro hsh), if_neg hm]

/-- Evaluation of LinearMinimumSquareError.final_activation_and_cost on
same-shaped inputs with at least one sample. -/
lemma linearMSE_fac_eq (Y ZL : Mat) (hsh : Y.shape = ZL.shape)
    (hm : Y.cols ≠ 0) :
    LinearMinimumSquareError.final_activation_and_cost Y ZL =
      .ok (-1 / (Y.cols : ℝ) * (ewise (fun a y => (a - y) ^ 2) ZL Y).sum,
           ZL, (ewise (fun a y => a - y) ZL Y).map (fun x => 2 * x)) := by
  unfold LinearMinimumSquareError.final_activation_and_cost
  rw [if_neg (not_not_intro hsh), if_neg hm]

/-- Broadcasting a length-1 axis against a length-n axis gives length n. -/
lemma bdim_one_left (n : ℕ) : bdim 1 n = some n := by
  unfold bdim
  by_cases h : 1 = n <;> simp [h]

/-- Broadcasting a length-n axis against a length-1 axis gives length n. -/
lemma bdim_one_right (n : ℕ) : bdim n 1 = some n := by
  unfold bdim
  by_cases h : n = 1 <;> simp [h]

/-- Summing through the broadcast index selection is plain summation. -/
lemma sum_bsel (m : ℕ) (f : ℕ → ℝ) :
    ∑ j ∈ Finset.range m, f (bsel m j) = ∑ j ∈ Finset.range m, f j := by
  unfold bsel
  split_ifs with h
  · subst h; simp
  · rfl

/-- Index selection along a length-1 broadcast axis always reads position 0. -/
lemma bsel_one (i : ℕ) : bsel 1 i = 0 := by simp [bsel]

/-- The double sum produced by broadcasting a row against a transposed row
factors into a product of two plain sums. -/
lemma sum_bsel2 (m : ℕ) (f g : ℕ → ℝ) :
    (∑ i ∈ Finset.range m, ∑ j ∈ Finset.range m, f (bsel m j) * g (bsel m i)) =
      (∑ j ∈ Finset.range m, f j) * ∑ i ∈ Finset.range m, g i := by
  by_cases h : m = 1
  · subst h; simp [bsel]
  · have hb : ∀ k, bsel m k = k := fun k => by simp [bsel, h]
    simp only [hb]
    calc (∑ i ∈ Finset.range m, ∑ j ∈ Finset.range m, f j * g i)
        = ∑ i ∈ Finset.range m, (∑ j ∈ Finset.range m, f j) * g i :=
          Finset.sum_congr rfl fun i _ => (Finset.sum_mul _ _ _).symm
      _ = (∑ j ∈ Finset.range m, f j) * ∑ i ∈ Finset.range m, g i :=
          (Finset.mul_sum _ _ _).symm

/-- Evaluation of SigmoidPerceptron.final_activation_and_cost in the binary
classification case (one output row): the transposed indicator broadcasts to
an outer product, so the cost factors into (sum of all |ZL|) times (number of
misclassified samples). -/
lemma sigmoidPerceptron_fac_eq_row (Y ZL : Mat) (hY : Y.rows = 1)
    (hsh : Y.shape = ZL.shape) (hm : Y.cols ≠ 0) :
    SigmoidPerceptron.final_activation_and_cost Y ZL =
      .ok (-1 / (Y.cols : ℝ) *
            ((∑ j ∈ Finset.range Y.cols, |ZL.entry 0 j|) *
              ∑ i ∈ Finset.range Y.cols,
                (logicalXor Y
                  (binary_classification_prediction (sigmoid ZL))).entry 0 i),
           sigmoid ZL,
           ewise (fun y i => (2 * y - 1) * i) Y
             (logicalXor Y (binary_classification_prediction (sigmoid ZL)))) := by
  unfold SigmoidPerceptron.final_activation_and_cost
    SigmoidPerceptron.final_activation
  rw [if_neg (not_not_intro hsh), if_neg hm]
  obtain ⟨yr, yc, yf⟩ := Y
  obtain ⟨zr, zc, zf⟩ := ZL
  simp only [Mat.shape, Prod.mk.injEq] at hsh
  obtain ⟨hr, hc⟩ := hsh
  dsimp only at hY
  subst hY
  subst hr
  subst hc
  dsimp only
  rw [show bmul (Mat.map (fun z => |z|) ⟨1, yc, zf⟩)
        (Mat.transpose (logicalXor ⟨1, yc, yf⟩
          (binary_classification_prediction (sigmoid ⟨1, yc, zf⟩)))) =
      some ⟨yc, yc, fun i j => |zf 0 (bsel yc j)| *
        (logicalXor ⟨1, yc, yf⟩
          (binary_classification_prediction
            (sigmoid ⟨1, yc, zf⟩))).entry 0 (bsel yc i)⟩ by
    unfold bmul
    dsimp only [Mat.map, Mat.transpose, logicalXor]
    rw [bdim_one_left, bdim_one_right]
    simp only [bsel_one]]
  refine congrArg Except.ok ?_
  refine Prod.ext ?_ rfl
  show -1 / (yc : ℝ) * Mat.sum _ = _
  unfold Mat.sum
  simp only []
  rw [sum_bsel2 yc (fun t => |zf 0 t|)
    (fun t => (logicalXor ⟨1, yc, yf⟩
      (binary_classification_prediction (sigmoid ⟨1, yc, zf⟩))).entry 0 t)]

/-- Evaluation of compute_cost_with_regularization when the supplied cost
function returns a base cost and there is at least one sample. -/
lemma compute_cost_with_regularization_eq (Y A : Mat)
    (params : List (String × Mat))
    (cost_function : Mat → Mat → Except CostError ℝ) (lambd base : ℝ)
    (hcf : cost_function A Y = .ok base) (hm : Y.cols ≠ 0) :
    compute_cost_with_regularization Y A params cost_function lambd =
      .ok (base +
        lambd / (2 * (Y.cols : ℝ)) * ((selectWs params).map Mat.sumSq).sum) := by
  unfold compute_cost_with_regularization
  rw [hcf]
  dsimp only
  rw [if_neg hm]

/-- A sum of squared entries is nonnegative. -/
lemma Mat.sumSq_nonneg (M : Mat) : 0 ≤ M.sumSq := by
  unfold Mat.sumSq
  positivity

/-- A sum of squared entries is positive as soon as one in-range entry is
nonzero. -/
lemma Mat.sumSq_pos (M : Mat) (i j : ℕ) (hi : i < M.rows) (hj : j < M.cols)
    (hne : M.entry i j ≠ 0) : 0 < M.sumSq := by
  unfold Mat.sumSq
  refine Finset.sum_pos' (fun k _ => Finset.sum_nonneg fun l _ => sq_nonneg _)
    ⟨i, Finset.mem_range.mpr hi, ?_⟩
  exact Finset.sum_pos' (fun l _ => sq_nonneg _)
    ⟨j, Finset.mem_range.mpr hj, by positivity⟩

/-- A list of nonnegative reals containing a positive element has a positive
sum. -/
lemma list_sum_pos (l : List ℝ) (hnn : ∀ x ∈ l, 0 ≤ x)
    (hex : ∃ x ∈ l, 0 < x) : 0 < l.sum := by
  induction l with
  | nil => simp at hex
  | cons a t ih =>
    obtain ⟨x, hx, hxp⟩ := hex
    rcases List.mem_cons.mp hx with h | h
    · have ht : 0 ≤ t.sum :=
        List.sum_nonneg fun y hy => hnn y (List.mem_cons_of_mem _ hy)
      rw [List.sum_cons, ← h]
      linarith
    · have ha : 0 ≤ a := hnn a (List.mem_cons_self a t)
      have ht := ih (fun y hy => hnn y (List.mem_cons_of_mem _ hy)) ⟨x, h, hxp⟩
      rw [List.sum_cons]
      linarith

/-! Concrete inputs for the spec's worked examples. -/

/-- The labels [[1, 0]] of the SigmoidCrossEntropy worked example. -/
def Yc1 : Mat := ⟨1, 2, fun _ j => if j = 0 then 1 else 0⟩

/-- The pre-activations [[0, 0]] of the SigmoidCrossEntropy worked example. -/
def Zc1 : Mat := ⟨1, 2, fun _ _ => 0⟩

/-- The one-hot labels [[1], [0]] of the SoftmaxCrossEntropy worked example. -/
def Yc2 : Mat := ⟨2, 1, fun i _ => if i = 0 then 1 else 0⟩

/-- The pre-activations [[0], [0]] of the SoftmaxCrossEntropy worked
example. -/
def Zc2 : Mat := ⟨2, 1, fun _ _ => 0⟩

/-- The labels [[2]] of the LinearMinimumSquareError worked example. -/
def Yc3 : Mat := ⟨1, 1, fun _ _ => 2⟩

/-- The pre-activations [[3]] of the LinearMinimumSquareError worked
example. -/
def Zc3 : Mat := ⟨1, 1, fun _ _ => 3⟩

/-- C1: for every Y and ZL of identical shape with at least one sample,
SigmoidCrossEntropy.final_activation_and_cost(Y, ZL) returns the triple
(cost, AL, dZL) with AL = sigmoid(ZL) element-wise, cost = -(1/m) times the
sum over all entries of Y*log(AL) + (1-Y)*log(1-AL) where m = Y.shape[1],
and dZL = AL - Y. -/
theorem sigmoidCrossEntropy_correct (Y ZL : Mat) (hsh : Y.shape = ZL.shape)
    (hm : 0 < Y.cols) :
    SigmoidCrossEntropy.final_activation_and_cost Y ZL =
      .ok (-(1 / (Y.cols : ℝ)) *
            ∑ i ∈ Finset.range Y.rows, ∑ j ∈ Finset.range Y.cols,
              (Y.entry i j * Real.log ((sigmoid ZL).entry i j) +
                (1 - Y.entry i j) * Real.log (1 - (sigmoid ZL).entry i j)),
           sigmoid ZL, ewise (fun a y => a - y) (sigmoid ZL) Y) := by
  rw [sigmoidCE_fac_eq Y ZL hsh (Nat.pos_iff_ne_zero.mp hm)]
  norm_num [Mat.sum, ewise, neg_div]

/-- Witness for C1: the spec's worked example Y = [[1,0]], ZL = [[0,0]] gives
AL = [[0.5, 0.5]], cost = -log(0.5) and dZL = [[-0.5, 0.5]]. -/
theorem sigmoidCrossEntropy_correct_witness :
    SigmoidCrossEntropy.final_activation_and_cost Yc1 Zc1 =
      .ok (-Real.log (1 / 2), sigmoid Zc1,
           ewise (fun a y => a - y) (sigmoid Zc1) Yc1) ∧
    MatEq (sigmoid Zc1) ⟨1, 2, fun _ _ => 1 / 2⟩ ∧
    MatEq (ewise (fun a y => a - y) (sigmoid Zc1) Yc1)
      ⟨1, 2, fun _ j => if j = 0 then -(1 / 2) else 1 / 2⟩ := by
  refine ⟨?_, ⟨rfl, rfl, fun i hi j hj => ?_⟩, ⟨rfl, rfl, fun i hi j hj => ?_⟩⟩
  · rw [sigmoidCrossEntropy_correct Yc1 Zc1 rfl (by decide)]
    simp only [Except.ok.injEq, Prod.mk.injEq, and_true, true_and]
    norm_num [Yc1, Zc1, sigmoid, Mat.map, Finset.sum_range_succ,
      Real.exp_zero]
    ring_nf
  · norm_num [Zc1, sigmoid, Mat.map, Real.exp_zero]
  · by_cases hj0 : j = 0 <;>
      norm_num [hj0, Yc1, Zc1, sigmoid, Mat.map, ewise, Real.exp_zero]

/-- C2: for every Y and ZL of identical shape with at least one sample,
SoftmaxCrossEntropy.final_activation_and_cost(Y, ZL) returns (cost, AL, dZL)
with AL = softmax(ZL) per column, cost = -(1/m) times the sum over all
classes and samples of Y*log(AL) where m = Y.shape[1], and dZL = AL - Y. -/
theorem softmaxCrossEntropy_correct (Y ZL : Mat) (hsh : Y.shape = ZL.shape)
    (hm : 0 < Y.cols) :
    SoftmaxCrossEntropy.final_activation_and_cost Y ZL =
      .ok (-(1 / (Y.cols : ℝ)) *
            ∑ i ∈ Finset.range Y.rows, ∑ j ∈ Finset.range Y.cols,
              Y.entry i j * Real.log ((softmax ZL).entry i j),
           softmax ZL, ewise (fun a y => a - y) (softmax ZL) Y) := by
  rw [softmaxCE_fac_eq Y ZL hsh (Nat.pos_iff_ne_zero.mp hm)]
  norm_num [Mat.sum, ewise, neg_div]

/-- Witness for C2: the spec's worked example Y = [[1],[0]], ZL = [[0],[0]]
gives AL = [[0.5],[0.5]], cost = -log(0.5) and dZL = [[-0.5],[0.5]]. -/
theorem softmaxCrossEntropy_correct_witness :
    SoftmaxCrossEntropy.final_activation_and_cost Yc2 Zc2 =
      .ok (-Real.log (1 / 2), softmax Zc2,
           ewise (fun a y => a - y) (softmax Zc2) Yc2) ∧
    MatEq (softmax Zc2) ⟨2, 1, fun _ _ => 1 / 2⟩ ∧
    MatEq (ewise (fun a y => a - y) (softmax Zc2) Yc2)
      ⟨2, 1, fun i _ => if i = 0 then -(1 / 2) else 1 / 2⟩ := by
  refine ⟨?_, ⟨rfl, rfl, fun i hi j hj => ?_⟩, ⟨rfl, rfl, fun i hi j hj => ?_⟩⟩
  · rw [softmaxCrossEntropy_correct Yc2 Zc2 rfl (by decide)]
    simp only [Except.ok.injEq, Prod.mk.injEq, and_true, true_and]
    norm_num [Yc2, Zc2, softmax, Finset.sum_range_succ, Real.exp_zero]
  · norm_num [Zc2, softmax, Finset.sum_range_succ, Real.exp_zero]
  · by_cases hi0 : i = 0 <;>
      norm_num [hi0, Yc2, Zc2, softmax, ewise, Finset.sum_range_succ,
        Real.exp_zero]

/-- C3: for every Y and ZL of identical shape with at least one sample,
LinearMinimumSquareError.final_activation_and_cost(Y, ZL) returns
(cost, AL, dZL) with AL = ZL, cost = -(1/m) times the sum of (AL - Y)^2
(the negated sum of squared errors, as specified) where m = Y.shape[1], and
dZL = 2*(AL - Y). -/
theorem linearMinimumSquareError_correct (Y ZL : Mat)
    (hsh : Y.shape = ZL.shape) (hm : 0 < Y.cols) :
    LinearMinimumSquareError.final_activation_and_cost Y ZL =
      .ok (-(1 / (Y.cols : ℝ)) *
            ∑ i ∈ Finset.range Y.rows, ∑ j ∈ Finset.range Y.cols,
              (ZL.entry i j - Y.entry i j) ^ 2,
           ZL, (ewise (fun a y => a - y) ZL Y).map (fun x => 2 * x)) := by
  have hr : Y.rows = ZL.rows := congrArg Prod.fst hsh
  have hc : Y.cols = ZL.cols := congrArg Prod.snd hsh
  rw [linearMSE_fac_eq Y ZL hsh (Nat.pos_iff_ne_zero.mp hm)]
  norm_num [Mat.sum, ewise, neg_div]
  exact Or.inl (by rw [hr, hc])

/-- Witness for C3: the spec's worked example Y = [[2]], ZL = [[3]] gives
AL = [[3]], cost = -1 and dZL = [[2]]. -/
theorem linearMinimumSquareError_correct_witness :
    LinearMinimumSquareError.final_activation_and_cost Yc3 Zc3 =
      .ok (-1, Zc3, (ewise (fun a y => a - y) Zc3 Yc3).map (fun x => 2 * x)) ∧
    MatEq ((ewise (fun a y => a - y) Zc3 Yc3).map (fun x => 2 * x))
      ⟨1, 1, fun _ _ => 2⟩ := by
  refine ⟨?_, ⟨rfl, rfl, fun i hi j hj => ?_⟩⟩
  · rw [linearMinimumSquareError_correct Yc3 Zc3 rfl (by decide)]
    simp only [Except.ok.injEq, Prod.mk.injEq, and_true, true_and]
    norm_num [Yc3, Zc3, Finset.sum_range_succ]
  · norm_num [Yc3, Zc3, ewise, Mat.map]

/-- The sigmoid of a positive input exceeds the 0.5 threshold. -/
lemma half_lt_sigmoid (z : ℝ) (hz : 0 < z) :
    (1 : ℝ) / 2 < (1 + Real.exp (-z))⁻¹ := by
  have h1 : Real.exp (-z) < 1 := Real.exp_lt_one_iff.mpr (by linarith)
  have h2 : (0 : ℝ) < 1 + Real.exp (-z) := by positivity
  rw [← one_div, div_lt_div_iff₀ (by norm_num) h2]
  linarith

/-- The labels [[0, 1]] of the SigmoidPerceptron counterexample. -/
def Yc4 : Mat := ⟨1, 2, fun _ j => if j = 0 then 0 else 1⟩

/-- The pre-activations [[1, 2]] of the SigmoidPerceptron counterexample.
Sample 0 is misclassified (label 0, prediction 1); sample 1 is correctly
classified (label 1, prediction 1). -/
def Zc4 : Mat := ⟨1, 2, fun _ j => if j = 0 then 1 else 2⟩

/-- The misclassification indicator of the counterexample is [[1, 0]]. -/
lemma misc4_entry (i j : ℕ) (hj : j < 2) :
    (logicalXor Yc4
      (binary_classification_prediction (sigmoid Zc4))).entry i j =
      if j = 0 then 1 else 0 := by
  interval_cases j <;>
    norm_num [logicalXor, binary_classification_prediction, sigmoid, Mat.map,
      Yc4, Zc4, half_lt_sigmoid 1 one_pos, half_lt_sigmoid 2 two_pos]

/-- C4 is false on the code: at Y = [[0, 1]], ZL = [[1, 2]] the cost the code
returns is -(3/2), because np.abs(ZL) is multiplied by the TRANSPOSED
indicator and broadcast to a 2x2 outer product, while the cost the claim
describes (summing |ZL| entry-wise against the indicator, so that only
misclassified samples contribute) is -(1/2). -/
theorem sigmoidPerceptron_claim_false :
    (SigmoidPerceptron.final_activation_and_cost Yc4 Zc4).map (fun t => t.1) =
      .ok (-(3 / 2)) ∧
    claimedPerceptronCost Yc4 Zc4 = -(1 / 2) ∧
    ((-(3 / 2) : ℝ) ≠ -(1 / 2)) := by
  refine ⟨?_, ?_, by norm_num⟩
  · rw [sigmoidPerceptron_fac_eq_row Yc4 Zc4 rfl rfl (by decide)]
    simp only [Except.map]
    simp only [show Yc4.cols = 2 from rfl, Finset.sum_range_succ,
      Finset.sum_range_zero]
    rw [misc4_entry 0 0 (by norm_num), misc4_entry 0 1 (by norm_num)]
    norm_num [Zc4, abs_of_nonneg]
  · unfold claimedPerceptronCost
    simp only [Mat.sum, ewise, Mat.map, show Zc4.rows = 1 from rfl,
      show Zc4.cols = 2 from rfl, show Yc4.cols = 2 from rfl,
      Finset.sum_range_succ, Finset.sum_range_zero]
    rw [misc4_entry 0 0 (by norm_num), misc4_entry 0 1 (by norm_num)]
    norm_num [Zc4, abs_of_nonneg]

/-- C4 (amended): in the binary-classification domain (Y of shape (1, m)),
SigmoidPerceptron.final_activation_and_cost computes AL = sigmoid(ZL), the
hard prediction, and the XOR misclassification indicator, but its cost is
-(1/m) times (the sum of |ZL| over ALL samples) times (the number of
misclassified samples) — the transposed indicator broadcasts against |ZL| to
an m-by-m outer product — not the entry-wise sum the claim states; the
gradient dZL = (2Y - 1) * indicator is as claimed, zero at every correctly
classified entry. -/
theorem sigmoidPerceptron_amended (Y ZL : Mat) (hY : Y.rows = 1)
    (hsh : Y.shape = ZL.shape) (hm : 0 < Y.cols) :
    SigmoidPerceptron.final_activation_and_cost Y ZL =
      .ok (-(1 / (Y.cols : ℝ)) *
            ((∑ j ∈ Finset.range Y.cols, |ZL.entry 0 j|) *
              ∑ i ∈ Finset.range Y.cols,
                (logicalXor Y
                  (binary_classification_prediction (sigmoid ZL))).entry 0 i),
           sigmoid ZL,
           ewise (fun y ind => (2 * y - 1) * ind) Y
             (logicalXor Y (binary_classification_prediction (sigmoid ZL)))) ∧
    ∀ i j,
      (logicalXor Y (binary_classification_prediction (sigmoid ZL))).entry i j
        = 0 →
      (ewise (fun y ind => (2 * y - 1) * ind) Y
        (logicalXor Y
          (binary_classification_prediction (sigmoid ZL)))).entry i j = 0 := by
  constructor
  · rw [sigmoidPerceptron_fac_eq_row Y ZL hY hsh (Nat.pos_iff_ne_zero.mp hm)]
    norm_num [neg_div]
  · intro i j h
    simp [ewise, h]

/-- Witness for the amended C4: at Y = [[0, 1]], ZL = [[1, 2]] the code
returns cost -(3/2) = -(1/2) * (|1| + |2|) * 1, AL = sigmoid(ZL) and
dZL = (2Y - 1) * indicator. -/
theorem sigmoidPerceptron_amended_witness :
    SigmoidPerceptron.final_activation_and_cost Yc4 Zc4 =
      .ok (-(3 / 2), sigmoid Zc4,
           ewise (fun y ind => (2 * y - 1) * ind) Yc4
             (logicalXor Yc4
               (binary_classification_prediction (sigmoid Zc4)))) := by
  rw [(sigmoidPerceptron_amended Yc4 Zc4 rfl rfl (by decide)).1]
  simp only [Except.ok.injEq, Prod.mk.injEq, and_true, true_and]
  simp only [show Yc4.cols = 2 from rfl, Finset.sum_range_succ,
    Finset.sum_range_zero]
  rw [misc4_entry 0 0 (by norm_num), misc4_entry 0 1 (by norm_num)]
  norm_num [Zc4, abs_of_nonneg]

/-- The labels [[0]] of the shape-mismatch counterexample. -/
def Yc5 : Mat := ⟨1, 1, fun _ _ => 0⟩

/-- A model output [[0, 0]] whose shape (1, 2) differs from Yc5's (1, 1). -/
def Ac5 : Mat := ⟨1, 2, fun _ _ => 0⟩

/-- C5 is false on the code: compute_cost_with_regularization performs no
shape check, so with a cost function that succeeds on the mismatched pair it
returns a result instead of raising ShapeMismatch. -/
theorem shapeMismatch_claim_false :
    Yc5.shape ≠ Ac5.shape ∧
    compute_cost_with_regularization Yc5 Ac5 [] (fun _ _ => .ok 0) 0 =
      .ok 0 := by
  constructor
  · decide
  · rw [compute_cost_with_regularization_eq Yc5 Ac5 [] (fun _ _ => .ok 0) 0 0
      rfl (by decide)]
    norm_num [selectWs]

/-- C5 (amended): for every pair Y, ZL of differing shapes,
final_activation_and_cost of every variant fails with a ShapeMismatch error
carrying both shapes and never returns a result; but
compute_cost_with_regularization performs no shape check of its own: whenever
the supplied cost_function returns a base cost and Y has at least one sample,
it returns a result, whatever the shapes of Y and A. -/
theorem shapeMismatch_amended :
    (∀ (v : Variant) (Y ZL : Mat), Y.shape ≠ ZL.shape →
      finalActivationAndCost v Y ZL =
        .error (.shapeMismatch Y.shape ZL.shape)) ∧
    (∀ (Y A : Mat) (params : List (String × Mat))
        (cost_function : Mat → Mat → Except CostError ℝ) (lambd base : ℝ),
      cost_function A Y = .ok base → 0 < Y.cols →
      compute_cost_with_regularization Y A params cost_function lambd =
        .ok (base + lambd / (2 * (Y.cols : ℝ)) *
          ((selectWs params).map Mat.sumSq).sum)) := by
  constructor
  · intro v Y ZL h
    cases v
    · simp only [finalActivationAndCost]
      unfold SigmoidCrossEntropy.final_activation_and_cost
      rw [if_pos h]
    · simp only [finalActivationAndCost]
      unfold SigmoidPerceptron.final_activation_and_cost
      rw [if_pos h]
    · simp only [finalActivationAndCost]
      unfold SoftmaxCrossEntropy.final_activation_and_cost
      rw [if_pos h]
    · simp only [finalActivationAndCost]
      unfold LinearMinimumSquareError.final_activation_and_cost
      rw [if_pos h]
  · intro Y A params cost_function lambd base hcf hm
    exact compute_cost_with_regularization_eq Y A params cost_function lambd
      base hcf (Nat.pos_iff_ne_zero.mp hm)

/-- Witness for the amended C5: the sigmoid cross-entropy variant rejects the
mismatched pair with both shapes in the error, while the regularization
wrapper accepts the same mismatched pair and returns 7 + (3/2)*0 = 7. -/
theorem shapeMismatch_amended_witness :
    finalActivationAndCost Variant.sigmoidCE Yc5 Ac5 =
      .error (.shapeMismatch (1, 1) (1, 2)) ∧
    compute_cost_with_regularization Yc5 Ac5 [] (fun _ _ => .ok 7) 3 =
      .ok 7 := by
  constructor
  · rw [shapeMismatch_amended.1 Variant.sigmoidCE Yc5 Ac5 (by decide)]
    rfl
  · rw [shapeMismatch_amended.2 Yc5 Ac5 [] (fun _ _ => .ok 7) 3 7 rfl
      (by decide)]
    norm_num [selectWs]

/-- C6: for every variant and every Y, ZL on which the joint operation
returns a triple (cost, AL, dZL), the AL component equals the result of
calling final_activation(ZL) standalone. -/
theorem final_activation_consistent (v : Variant) (Y ZL : Mat) (c : ℝ)
    (A dZ : Mat)
    (h : finalActivationAndCost v Y ZL = .ok (c, A, dZ)) :
    A = finalActivation v ZL := by
  cases v
  case sigmoidCE =>
    simp only [finalActivationAndCost] at h
    unfold SigmoidCrossEntropy.final_activation_and_cost at h
    split at h
    · simp at h
    split at h
    · simp at h
    simp only [Except.ok.injEq, Prod.mk.injEq] at h
    simp only [finalActivation]
    exact h.2.1.symm
  case sigmoidPerceptron =>
    simp only [finalActivationAndCost] at h
    unfold SigmoidPerceptron.final_activation_and_cost at h
    split at h
    · simp at h
    split at h
    · simp at h
    dsimp only at h
    split at h
    · simp at h
    simp only [Except.ok.injEq, Prod.mk.injEq] at h
    simp only [finalActivation]
    exact h.2.1.symm
  case softmaxCE =>
    simp only [finalActivationAndCost] at h
    unfold SoftmaxCrossEntropy.final_activation_and_cost at h
    split at h
    · simp at h
    split at h
    · simp at h
    simp only [Except.ok.injEq, Prod.mk.injEq] at h
    simp only [finalActivation]
    exact h.2.1.symm
  case linearMSE =>
    simp only [finalActivationAndCost] at h
    unfold LinearMinimumSquareError.final_activation_and_cost at h
    split at h
    · simp at h
    split at h
    · simp at h
    simp only [Except.ok.injEq, Prod.mk.injEq] at h
    simp only [finalActivation]
    exact h.2.1.symm

/-- Witness for C6: on the LinearMinimumSquareError worked example the AL
component Zc3 equals final_activation applied standalone. -/
theorem final_activation_consistent_witness :
    Zc3 = finalActivation Variant.linearMSE Zc3 :=
  final_activation_consistent Variant.linearMSE Yc3 Zc3
    (-1 / (Yc3.cols : ℝ) * (ewise (fun a y => (a - y) ^ 2) Zc3 Yc3).sum)
    Zc3 ((ewise (fun a y => a - y) Zc3 Yc3).map (fun x => 2 * x))
    (by
      simp only [finalActivationAndCost]
      exact linearMSE_fac_eq Yc3 Zc3 rfl (by decide))

/-- A 1-sample label matrix [[1]] for the regularization examples. -/
def Yc7 : Mat := ⟨1, 1, fun _ _ => 1⟩

/-- A weight matrix [[3]] stored under the weight-named key W1. -/
def Wc7 : Mat := ⟨1, 1, fun _ _ => 3⟩

/-- A bias matrix [[100]] stored under the non-weight key b1; its (large)
entries must not influence the penalty. -/
def Bc7 : Mat := ⟨1, 1, fun _ _ => 100⟩

/-- C7: compute_cost_with_regularization(Y, A, params, cost_function, lambd)
returns cost_function(A, Y) plus (lambd/(2m)) times the sum over every
parameter whose name has the weight prefix W of the sum of its squared
entries, with m = Y.shape[1]; parameters without the weight prefix contribute
nothing to the penalty. -/
theorem compute_cost_with_regularization_correct (Y A : Mat)
    (params : List (String × Mat))
    (cost_function : Mat → Mat → Except CostError ℝ) (lambd base : ℝ)
    (hcf : cost_function A Y = .ok base) (hm : 0 < Y.cols) :
    compute_cost_with_regularization Y A params cost_function lambd =
      .ok (base + lambd / (2 * (Y.cols : ℝ)) *
        ((params.filter (fun p => isWeightName p.1)).map
          (fun p => Mat.sumSq p.2)).sum) := by
  rw [compute_cost_with_regularization_eq Y A params cost_function lambd base
    hcf (Nat.pos_iff_ne_zero.mp hm)]
  simp [selectWs, List.map_map, Function.comp_def]

/-- Witness for C7: base cost 5, lambda 2, one sample, W1 = [[3]] and
b1 = [[100]] give 5 + (2/2) * 9 = 14; the bias entry is ignored. -/
theorem compute_cost_with_regularization_correct_witness :
    compute_cost_with_regularization Yc7 Yc7 [(("W1"), Wc7), (("b1"), Bc7)]
      (fun _ _ => .ok 5) 2 = .ok 14 := by
  rw [compute_cost_with_regularization_correct Yc7 Yc7
    ([(("W1"), Wc7), (("b1"), Bc7)]) (fun _ _ => .ok 5) 2 5 rfl (by decide)]
  have h1 : isWeightName ("W1") = true := by decide
  have h2 : isWeightName ("b1") = false := by decide
  simp only [List.filter, h1, h2]
  norm_num [Mat.sumSq, Wc7, Yc7, Finset.sum_range_succ]

/-- C8: with lambd = 0 the regularized cost is exactly the base cost. -/
theorem regularization_lambda_zero (Y A : Mat)
    (params : List (String × Mat))
    (cost_function : Mat → Mat → Except CostError ℝ) (base : ℝ)
    (hcf : cost_function A Y = .ok base) (hm : 0 < Y.cols) :
    compute_cost_with_regularization Y A params cost_function 0 =
      .ok base := by
  rw [compute_cost_with_regularization_eq Y A params cost_function 0 base
    hcf (Nat.pos_iff_ne_zero.mp hm)]
  norm_num

/-- Witness for C8: with lambda 0 the wrapper returns the base cost 5
unchanged even though W1 is nonzero. -/
theorem regularization_lambda_zero_witness :
    compute_cost_with_regularization Yc7 Yc7 [(("W1"), Wc7)]
      (fun _ _ => .ok 5) 0 = .ok 5 :=
  regularization_lambda_zero Yc7 Yc7 ([(("W1"), Wc7)]) (fun _ _ => .ok 5) 5
    rfl (by decide)

/-- C9: for fixed Y, A, cost function and parameters containing at least one
weight-named entry with a nonzero in-range value, the regularized cost is
strictly increasing in lambd. -/
theorem regularization_strict_mono (Y A : Mat)
    (params : List (String × Mat))
    (cost_function : Mat → Mat → Except CostError ℝ)
    (base lambd1 lambd2 : ℝ)
    (hcf : cost_function A Y = .ok base) (hm : 0 < Y.cols)
    (hl : lambd1 < lambd2)
    (hW : ∃ p ∈ params, isWeightName p.1 = true ∧
      ∃ i < p.2.rows, ∃ j < p.2.cols, p.2.entry i j ≠ 0) :
    ∀ c1 c2,
      compute_cost_with_regularization Y A params cost_function lambd1 =
        .ok c1 →
      compute_cost_with_regularization Y A params cost_function lambd2 =
        .ok c2 →
      c1 < c2 := by
  intro c1 c2 h1 h2
  rw [compute_cost_with_regularization_eq Y A params cost_function lambd1 base
    hcf (Nat.pos_iff_ne_zero.mp hm)] at h1
  rw [compute_cost_with_regularization_eq Y A params cost_function lambd2 base
    hcf (Nat.pos_iff_ne_zero.mp hm)] at h2
  simp only [Except.ok.injEq] at h1 h2
  obtain ⟨p, hp, hpw, i, hi, j, hj, hne⟩ := hW
  have hmem : Mat.sumSq p.2 ∈ (selectWs params).map Mat.sumSq :=
    List.mem_map.mpr ⟨p.2,
      List.mem_map.mpr ⟨p, List.mem_filter.mpr ⟨hp, hpw⟩, rfl⟩, rfl⟩
  have hS : 0 < ((selectWs params).map Mat.sumSq).sum := by
    refine list_sum_pos _ (fun x hx => ?_)
      ⟨Mat.sumSq p.2, hmem, Mat.sumSq_pos p.2 i j hi hj hne⟩
    obtain ⟨M, _, rfl⟩ := List.mem_map.mp hx
    exact Mat.sumSq_nonneg M
  have hc : (0 : ℝ) < (Y.cols : ℝ) := Nat.cast_pos.mpr hm
  have hden : (0 : ℝ) < 2 * (Y.cols : ℝ) := by linarith
  have hdiv : lambd1 / (2 * (Y.cols : ℝ)) < lambd2 / (2 * (Y.cols : ℝ)) := by
    rw [div_eq_mul_inv, div_eq_mul_inv]
    exact mul_lt_mul_of_pos_right hl (inv_pos.mpr hden)
  have := mul_lt_mul_of_pos_right hdiv hS
  rw [← h1, ← h2]
  linarith

/-- Witness for C9: with base cost 5, W1 = [[3]] nonzero, lambda 0 gives cost
5 and lambda 2 gives cost 14, and 5 < 14. -/
theorem regularization_strict_mono_witness :
    compute_cost_with_regularization Yc7 Yc7 [(("W1"), Wc7), (("b1"), Bc7)]
      (fun _ _ => .ok 5) 0 = .ok 5 ∧
    compute_cost_with_regularization Yc7 Yc7 [(("W1"), Wc7), (("b1"), Bc7)]
      (fun _ _ => .ok 5) 2 = .ok 14 ∧
    (5 : ℝ) < 14 := by
  have h1 : compute_cost_with_regularization Yc7 Yc7
      [(("W1"), Wc7), (("b1"), Bc7)] (fun _ _ => .ok 5) 0 = .ok 5 := by
    rw [compute_cost_with_regularization_eq Yc7 Yc7
      ([(("W1"), Wc7), (("b1"), Bc7)]) (fun _ _ => .ok 5) 0 5 rfl (by decide)]
    norm_num
  have h2 : compute_cost_with_regularization Yc7 Yc7
      [(("W1"), Wc7), (("b1"), Bc7)] (fun _ _ => .ok 5) 2 = .ok 14 := by
    rw [compute_cost_with_regularization_eq Yc7 Yc7
      ([(("W1"), Wc7), (("b1"), Bc7)]) (fun _ _ => .ok 5) 2 5 rfl (by decide)]
    have hw : isWeightName ("W1") = true := by decide
    have hb : isWeightName ("b1") = false := by decide
    simp only [selectWs, List.filter, hw, hb]
    norm_num [Mat.sumSq, Wc7, Yc7, Finset.sum_range_succ]
  refine ⟨h1, h2, ?_⟩
  exact regularization_strict_mono Yc7 Yc7 ([(("W1"), Wc7), (("b1"), Bc7)])
    (fun _ _ => .ok 5) 5 0 2 rfl (by decide) (by norm_num)
    ⟨(("W1"), Wc7), List.mem_cons_self _ _, by decide,
      0, by decide, 0, by decide, by norm_num [Wc7]⟩
    5 14 h1 h2

/-- A label matrix of shape (1, 0): one output row, zero samples. -/
def Yc10 : Mat := ⟨1, 0, fun _ _ => 0⟩

/-- C10: with identical shapes but zero samples every variant fails with the
division-by-zero error coming from the 1/m scaling, not with ShapeMismatch
and not with a result; compute_cost_with_regularization divides by zero in
the same situation, so ShapeMismatch is not the only failure mode. -/
theorem zero_samples_divide_by_zero :
    (∀ (v : Variant) (Y ZL : Mat), Y.shape = ZL.shape → Y.cols = 0 →
      finalActivationAndCost v Y ZL = .error .divisionByZero) ∧
    (∀ (Y A : Mat) (params : List (String × Mat))
        (cost_function : Mat → Mat → Except CostError ℝ) (lambd base : ℝ),
      cost_function A Y = .ok base → Y.cols = 0 →
      compute_cost_with_regularization Y A params cost_function lambd =
        .error .divisionByZero) := by
  constructor
  · intro v Y ZL hsh hc
    cases v
    · simp only [finalActivationAndCost]
      unfold SigmoidCrossEntropy.final_activation_and_cost
      rw [if_neg (not_not_intro hsh), if_pos hc]
    · simp only [finalActivationAndCost]
      unfold SigmoidPerceptron.final_activation_and_cost
      rw [if_neg (not_not_intro hsh), if_pos hc]
    · simp only [finalActivationAndCost]
      unfold SoftmaxCrossEntropy.final_activation_and_cost
      rw [if_neg (not_not_intro hsh), if_pos hc]
    · simp only [finalActivationAndCost]
      unfold LinearMinimumSquareError.final_activation_and_cost
      rw [if_neg (not_not_intro hsh), if_pos hc]
  · intro Y A params cost_function lambd base hcf hc
    unfold compute_cost_with_regularization
    rw [hcf]
    dsimp only
    rw [if_pos hc]

/-- Witness for C10: on the 1-by-0 inputs the sigmoid cross-entropy variant
and the regularization wrapper both fail with the division-by-zero error. -/
theorem zero_samples_divide_by_zero_witness :
    finalActivationAndCost Variant.sigmoidCE Yc10 Yc10 =
      .error .divisionByZero ∧
    compute_cost_with_regularization Yc10 Yc10 [] (fun _ _ => .ok 0) 1 =
      .error .divisionByZero :=
  ⟨zero_samples_divide_by_zero.1 Variant.sigmoidCE Yc10 Yc10 rfl rfl,
   zero_samples_divide_by_zero.2 Yc10 Yc10 [] (fun _ _ => .ok 0) 1 0 rfl rfl⟩

end CostFunctions
